import Mathlib

/-!
Verification development for the hotdrink-c repository: a reactive multi-way
dataflow engine (components, constraints, methods, planner, executor,
notifier) together with two C demo drivers that exercise it.

The demo drivers (`main.c` under `src/hotdrink-c/` and `src/hotdrink-c/src/`)
are embedded directly from their C source.  The engine itself is not part of
the visible source tree (the drivers only call its public API), so the engine
is modelled from the specification: variable store, constraint graph, planner,
executor and event notification, following the spec's data model, algorithm
description and scenarios.
-/

namespace HotdrinkSpec

/-- Lifecycle state of a variable.  Modelled from the spec: a variable "holds
an optional typed value and a lifecycle state ∈ \x7bPending, Ready, Error\x7d". -/
inductive VState where
  | ready
  | pending
  | error (msg : String)
  deriving DecidableEq, Repr

/-- One variable slot of the store.  Modelled from the spec: identity is a
unique name; the slot holds an optional value and a lifecycle state. -/
structure VarSlot where
  name : String
  value : Option Int
  state : VState
  deriving DecidableEq, Repr

/-- A method: a pure computation from an ordered list of input variable names
to an ordered list of output variable names, with a possible failure outcome.
Modelled from the spec (§3 Data model, "Method"). -/
structure Method where
  inputs : List String
  outputs : List String
  run : List Int → Except String (List Int)

/-- A constraint: a group of alternative methods.  Modelled from the spec
(§3, "Constraint"). -/
structure Constraint where
  methods : List Method

/-- Event payload kinds delivered to subscribers.  Modelled from the spec
(§6): data is the computed value when Ready, a diagnostic string when Error,
absent when Pending. -/
inductive EventKind where
  | pending
  | ready (v : Int)
  | error (msg : String)
  deriving DecidableEq, Repr

/-- An event delivered to subscribers of a variable. -/
structure Event where
  var : String
  kind : EventKind
  deriving DecidableEq, Repr

/-- A component: variable store, constraint graph, subscriptions, and the
set of variables changed (set) since the last update.  Modelled from the
spec (§2, §6). -/
structure Component where
  vars : List VarSlot
  constraints : List Constraint
  subs : List String
  changed : List String

/-- All methods of the component's constraint graph, flattened. -/
def allMethods (cs : List Constraint) : List Method :=
  cs.flatMap (·.methods)

/-- Look up a variable's current value. -/
def lookupValue (c : Component) (n : String) : Option Int :=
  match c.vars.find? (fun s => s.name = n) with
  | some s => s.value
  | none => none

/-- Look up a variable's current state (`none` when the name is unknown). -/
def lookupState (c : Component) (n : String) : Option VState :=
  match c.vars.find? (fun s => s.name = n) with
  | some s => some s.state
  | none => none

/-- Apply a function to the slot named `n`, leaving other slots alone. -/
def updateSlot (c : Component) (n : String) (f : VarSlot → VarSlot) : Component :=
  { c with vars := c.vars.map (fun s => if s.name = n then f s else s) }

/-- Mark a variable Ready (keeping its value). -/
def markReady (c : Component) (n : String) : Component :=
  updateSlot c n (fun s => { s with state := .ready })

/-- Mark a variable Ready with a freshly computed value. -/
def markReadyVal (c : Component) (n : String) (v : Int) : Component :=
  updateSlot c n (fun s => { s with value := some v, state := .ready })

/-- Mark a variable Pending. -/
def markPending (c : Component) (n : String) : Component :=
  updateSlot c n (fun s => { s with state := .pending })

/-- Mark a variable Error with a diagnostic. -/
def markError (c : Component) (n : String) (msg : String) : Component :=
  updateSlot c n (fun s => { s with state := .error msg })

/-- Error kind returned synchronously by `component_set_variable`.
Modelled from the spec (§7): UnknownVariable. -/
inductive EngineError where
  | unknownVariable
  deriving DecidableEq, Repr

/-- `component_set_variable`.  Modelled from the spec (§6, §4.1): external
input assignment; on an unknown name it fails with UnknownVariable,
synchronously, with no event and no state change; on a known name it stores
the value, marks the variable Pending and records it as changed. -/
def component_set_variable (c : Component) (n : String) (v : Int) :
    Except EngineError Component :=
  if c.vars.any (fun s => s.name = n) then
    let c' := updateSlot c n (fun s => { s with value := some v, state := .pending })
    .ok { c' with changed := if n ∈ c.changed then c.changed else c.changed ++ [n] }
  else
    .error .unknownVariable

/-- `component_subscribe`.  Modelled from the spec (§4.5): appends to the
variable's subscriber list, no replay of past state. -/
def component_subscribe (c : Component) (n : String) : Component :=
  { c with subs := c.subs ++ [n] }

/-! ### Dependency closure (`dependents_of`) -/

/-- One step of the dependency closure: add the outputs of every method that
has an input in `s`.  Modelled from the spec (§4.2): follow any method's
input→output edges. -/
def depStep (g : List Method) (s : List String) : List String :=
  g.foldr
    (fun m acc =>
      if m.inputs.any (fun i => i ∈ s) then
        m.outputs.foldr (fun o acc2 => if o ∈ acc2 then acc2 else o :: acc2) acc
      else acc)
    s

/-- Iterate the closure step `n` times. -/
def depIter (g : List Method) : Nat → List String → List String
  | 0, s => s
  | n + 1, s => depIter g n (depStep g s)

/-- `dependents_of`: the variables reachable from `s` by following method
input→output edges, excluding the starting set itself.  Modelled from the
spec (§4.2); the iteration count is bounded by the number of methods, which
bounds the closure depth. -/
def dependents_of (g : List Method) (s : List String) : List String :=
  (depIter g g.length s).filter (fun v => ¬ v ∈ s)

/-! ### Planner -/

/-- A plan entry: the index of the constraint it satisfies together with the
chosen method.  Modelled from the spec (§3 "Plan", §4.3): at most one method
per constraint appears in a plan. -/
structure PMeth where
  cIdx : Nat
  m : Method

/-- A variable is external when no method of the graph produces it: its value
can only come from the caller.  Modelled from the spec (§4.3 step 5, "not
external"). -/
def externalVar (g : List Method) (v : String) : Bool :=
  ¬ g.any (fun m => v ∈ m.outputs)

/-- An input is available when it was already produced in the plan, or lies
outside the dirty region and currently holds a value.  Modelled from the
spec (§4.3 step 3): "a method is selectable once all its inputs are either
outside D (already stable) or already produced earlier in the plan". -/
def availableIn (c : Component) (d produced : List String) (i : String) : Bool :=
  i ∈ produced || (¬ i ∈ d && (lookupValue c i).isSome)

/-- A method is selectable when all its inputs are available and all its
outputs lie in the dirty region and are not yet written by the plan.
Modelled from the spec (§4.3 steps 2–3 and the no-double-write rule). -/
def selectable (c : Component) (d produced : List String) (m : Method) : Bool :=
  m.inputs.all (availableIn c d produced) &&
    m.outputs.all (fun o => o ∈ d && ¬ o ∈ produced)

/-- Among the selectable methods of one constraint, pick the one whose output
set most reduces the remaining unplanned variables; ties go to declaration
order.  Modelled from the spec (§4.3 step 4). -/
def pickMethod (c : Component) (d produced : List String) (ms : List Method) :
    Option Method :=
  (ms.filter (selectable c d produced)).argmax (fun m => m.outputs.length)

/-- Scan the remaining constraints in declaration order; return the first
selectable method together with the remaining constraints with that
constraint removed. -/
def firstSel (c : Component) (d produced : List String) :
    List (Nat × Constraint) → Option (PMeth × List (Nat × Constraint))
  | [] => none
  | (i, con) :: rest =>
    match pickMethod c d produced con.methods with
    | some m => some (⟨i, m⟩, rest)
    | none =>
      match firstSel c d produced rest with
      | some (pm, rest') => some (pm, (i, con) :: rest')
      | none => none

/-- The planning loop: repeatedly select a method from some remaining
constraint until no constraint is selectable, threading the set of produced
variables.  Modelled from the spec (§4.3 step 3, topological ordering). -/
def planLoop (c : Component) (d : List String) :
    Nat → List (Nat × Constraint) → List String →
      List PMeth × List (Nat × Constraint) × List String
  | 0, rem, produced => ([], rem, produced)
  | fuel + 1, rem, produced =>
    match firstSel c d produced rem with
    | none => ([], rem, produced)
    | some (pm, rem') =>
      let (ps, remF, prodF) := planLoop c d fuel rem' (produced ++ pm.m.outputs)
      (pm :: ps, remF, prodF)

/-- A leftover method is softly blocked when every input is either available
or an external variable with no value yet: the constraint is skipped silently
because the caller may still supply the missing external input.  Modelled
from the spec (§4.3 step 5, "not yet available and not external", read
together with the §8 scenario in which `c = a + b` is not planned, and not
errored, while `b` has never been given a value). -/
def softBlocked (c : Component) (d produced : List String) (m : Method) : Bool :=
  m.inputs.all
    (fun i => availableIn c d produced i || (externalVar (allMethods c.constraints) i && ¬ (lookupValue c i).isSome))

/-- The unplanned output variables of the constraints that are unsatisfiable
(blocked on a non-external missing input).  Modelled from the spec (§4.3
step 5): those variables transition to Error; softly blocked constraints are
skipped without error. -/
def unsatOutputs (c : Component) (d produced : List String)
    (rem : List (Nat × Constraint)) : List String :=
  rem.flatMap
    (fun ic =>
      if ic.2.methods.all (fun m => softBlocked c d produced m) then []
      else
        (ic.2.methods.flatMap (·.outputs)).filter
          (fun o => o ∈ d && ¬ o ∈ produced))

/-- A constraint is a planning candidate when one of its methods touches the
dirty region.  Modelled from the spec (§4.3 step 2): "each constraint with at
least one endpoint in D". -/
def candidateCon (d : List String) (con : Constraint) : Bool :=
  con.methods.any
    (fun m => m.inputs.any (fun i => i ∈ d) || m.outputs.any (fun o => o ∈ d))

/-- The planner: compute the dirty region, filter the candidate constraints
and run the planning loop starting from the changed set.  Returns the ordered
plan and the variables of unsatisfiable constraints.  Modelled from the spec
(§4.3). -/
def makePlan (c : Component) : List PMeth × List String :=
  let g := allMethods c.constraints
  let d := c.changed ++ dependents_of g c.changed
  let cands := c.constraints.enum.filter (fun ic => candidateCon d ic.2)
  let r := planLoop c d cands.length cands c.changed
  (r.1, unsatOutputs c d r.2.2 r.2.1)

/-! ### Executor -/

/-- Executor state: the component being updated, the event log so far, the
log of invoked methods (constraint index and success flag), and the set of
variables known unavailable for this cycle. -/
structure ExecSt where
  comp : Component
  events : List Event
  invoked : List (Nat × Bool)
  errs : List String

/-- Read the values of a method's inputs; `none` if any is absent. -/
def readVals (c : Component) : List String → Option (List Int)
  | [] => some []
  | n :: ns =>
    match lookupValue c n, readVals c ns with
    | some v, some vs => some (v :: vs)
    | _, _ => none

/-- Mark each output Ready with its computed value, emitting one event per
transition. -/
def writeOutputs (c : Component) : List String → List Int → Component × List Event
  | [], _ => (c, [])
  | _ :: _, [] => (c, [])
  | n :: ns, v :: vs =>
    let r := writeOutputs (markReadyVal c n v) ns vs
    (r.1, ⟨n, .ready v⟩ :: r.2)

/-- Mark each variable of the list Error with the given diagnostic, emitting
one event per transition. -/
def writeErrors (c : Component) (msg : String) : List String → Component × List Event
  | [] => (c, [])
  | n :: ns =>
    let r := writeErrors (markError c n msg) msg ns
    (r.1, ⟨n, .error msg⟩ :: r.2)

/-- One executor step.  Modelled from the spec (§4.4): skip a method that
would consume an unavailable variable; otherwise read the inputs, mark the
outputs Pending, invoke the computation; on success mark each output Ready
with its value; on failure mark the declared outputs Error with the
diagnostic and every transitive dependent Error as well, recording them all
as unavailable so that later consumers are skipped. -/
def execStep (g : List Method) (st : ExecSt) (pm : PMeth) : ExecSt :=
  if pm.m.inputs.any (fun i => i ∈ st.errs) then st
  else
    match readVals st.comp pm.m.inputs with
    | none => st
    | some vals =>
      let c1 := pm.m.outputs.foldl markPending st.comp
      let pendEvs := pm.m.outputs.map (fun o => (⟨o, .pending⟩ : Event))
      match pm.m.run vals with
      | .ok outs =>
        let r := writeOutputs c1 pm.m.outputs outs
        { comp := r.1, events := st.events ++ pendEvs ++ r.2,
          invoked := st.invoked ++ [(pm.cIdx, true)], errs := st.errs }
      | .error msg =>
        let r := writeErrors c1 msg pm.m.outputs
        let deps := (dependents_of g pm.m.outputs).filter (fun v => ¬ v ∈ st.errs)
        let r2 := writeErrors r.1 ("unavailable: " ++ msg) deps
        { comp := r2.1, events := st.events ++ pendEvs ++ r.2 ++ r2.2,
          invoked := st.invoked ++ [(pm.cIdx, false)],
          errs := st.errs ++ pm.m.outputs ++ deps }

/-- Run a plan in order, single-pass.  Modelled from the spec (§4.4). -/
def execPlan (g : List Method) (st : ExecSt) (plan : List PMeth) : ExecSt :=
  plan.foldl (execStep g) st

/-- Run a plan from the fresh executor state of one `update` call: empty
event log, empty invocation log, empty unavailable set — exactly how
`component_update` launches the executor.  Modelled from the spec (§4.4). -/
def execFrom (g : List Method) (c0 : Component) (plan : List PMeth) : ExecSt :=
  execPlan g ⟨c0, [], [], []⟩ plan

/-! ### Update -/

/-- `component_update`: commit the changed variables (Ready events), plan
over the dirty region (Error events for unsatisfiable constraints), execute
the plan, and clear the changed set.  Modelled from the spec (§2, §4.3–4.5,
§6). -/
def component_update (c : Component) : Component × List Event :=
  let readyEvs : List Event :=
    c.changed.map (fun n => ⟨n, .ready ((lookupValue c n).getD 0)⟩)
  let c1 := c.changed.foldl markReady c
  let pl := makePlan c
  let wu := writeErrors c1 "unsatisfiable constraint" pl.2
  let st := execPlan (allMethods c.constraints) ⟨wu.1, [], [], []⟩ pl.1
  ({ st.comp with changed := [] }, readyEvs ++ wu.2 ++ st.events)

/-! ### Call sequences and event delivery -/

/-- A call against the engine's public mutating API. -/
inductive EngineOp where
  | setv (n : String) (v : Int)
  | upd

/-- Run one call; a failed `set` leaves the component unchanged and delivers
no event.  Modelled from the spec (§6, §7). -/
def runOp (c : Component) : EngineOp → Component × List Event
  | .setv n v =>
    match component_set_variable c n v with
    | .ok c' => (c', [])
    | .error _ => (c, [])
  | .upd => component_update c

/-- Run a sequence of calls, concatenating the delivered events. -/
def runSeq (c : Component) : List EngineOp → Component × List Event
  | [] => (c, [])
  | op :: ops =>
    let r1 := runOp c op
    let r2 := runSeq r1.1 ops
    (r2.1, r1.2 ++ r2.2)

/-- Events as delivered to subscribers: one invocation per subscription of
the event's variable, in registration order.  Modelled from the spec
(§4.5). -/
def deliveredTo (subs : List String) (evs : List Event) : List Event :=
  evs.flatMap (fun e => (subs.filter (fun s => s = e.var)).map (fun _ => e))

/-! ### The demo component -/

/-- The method `c = a + b` of the demo component.  Modelled from the spec
(§8 scenario): one constraint with method `c = a + b`. -/
def addMethod : Method :=
  { inputs := ["a", "b"], outputs := ["c"],
    run := fun vs =>
      match vs with
      | [x, y] => .ok [x + y]
      | _ => .error "wrong number of inputs" }

/-- `component_new`: the component built for the demo drivers.  Modelled from
the spec (§8 scenario): variables a, b, c, no initial values, one constraint
with method `c = a + b`. -/
def component_new : Component :=
  { vars :=
      [⟨"a", none, .ready⟩, ⟨"b", none, .ready⟩, ⟨"c", none, .ready⟩],
    constraints := [⟨[addMethod]⟩],
    subs := [],
    changed := [] }

/-- The demo component after `main` subscribes the handler to a, b and c. -/
def demoComponent : Component :=
  component_subscribe (component_subscribe (component_subscribe component_new "a") "b") "c"

/-- The demo component in the state reached after `set_variable(a, 3)`,
`update()` and `set_variable(b, 5)`: b is dirty and an update is due. -/
def demoDirty : Component :=
  { vars := [⟨"a", some 3, .ready⟩, ⟨"b", some 5, .pending⟩, ⟨"c", none, .ready⟩],
    constraints := [⟨[addMethod]⟩],
    subs := ["a", "b", "c"],
    changed := ["b"] }

/-- The division method of the spec's failure scenario: `c = a / b`, failing
on a zero divisor.  Modelled from the spec (§8): method for `c` defined as
division, `update` after `b = 0` yields `c: Error("division by zero")`. -/
def divMethod : Method :=
  { inputs := ["a", "b"], outputs := ["c"],
    run := fun vs =>
      match vs with
      | [x, y] => if y = 0 then .error "division by zero" else .ok [x / y]
      | _ => .error "wrong number of inputs" }

/-- The division demo component, with a = 1 and b = 0 already set and dirty.
Modelled from the spec (§8 failure scenario). -/
def divDirty : Component :=
  { vars := [⟨"a", some 1, .pending⟩, ⟨"b", some 0, .pending⟩, ⟨"c", none, .ready⟩],
    constraints := [⟨[divMethod]⟩],
    subs := ["a", "b", "c"],
    changed := ["a", "b"] }

/-- An addition method on variables disjoint from the division constraint:
`y = w + x`.  Modelled from the spec (§7 partial failure: constraint Y with
variables disjoint from the failing constraint X). -/
def mixMethod : Method :=
  { inputs := ["w", "x"], outputs := ["y"],
    run := fun vs =>
      match vs with
      | [a, b] => .ok [a + b]
      | _ => .error "wrong number of inputs" }

/-- A component mixing the failing division constraint `c = a / b` (with
b = 0) and the unrelated addition constraint `y = w + x`, all inputs set and
dirty.  Modelled from the spec (§7, §8): the failure of X must not stop Y's
variables from reaching Ready in the same cycle. -/
def mixDirty : Component :=
  { vars := [⟨"a", some 1, .pending⟩, ⟨"b", some 0, .pending⟩,
             ⟨"c", none, .ready⟩, ⟨"w", some 2, .pending⟩,
             ⟨"x", some 3, .pending⟩, ⟨"y", none, .ready⟩],
    constraints := [⟨[divMethod]⟩, ⟨[mixMethod]⟩],
    subs := ["a", "b", "c", "w", "x", "y"],
    changed := ["a", "b", "w", "x"] }

/-! ### The demo drivers

Embedded from the two C sources `src/hotdrink-c/main.c` and
`src/hotdrink-c/src/main.c`.  The concrete C layout of `CEventData` is
declared in engine headers that are not part of the visible source; the spec
(§6) says the payload is the computed value for Ready, a diagnostic string
for Error and absent for Pending, so the payload is embedded as a sum with
the two union-member reads `value` and `error` as projections. -/

/-- Payload of a C event. -/
inductive CEventData where
  | intVal (v : Int)
  | strVal (s : String)
  | absent
  deriving DecidableEq, Repr

/-- Reading the payload as the computed integer value (the `%i` read in the
first driver, the `.value` union member in the second). -/
def CEventData.value : CEventData → Int
  | .intVal v => v
  | _ => 0

/-- Reading the payload as the diagnostic string (the `%s` read in the first
driver, the `.error` union member in the second). -/
def CEventData.error : CEventData → String
  | .strVal s => s
  | _ => ""

/-- The C event type tag: the three named enumerators plus any other value
the underlying C integer could carry (the `default:` case). -/
inductive CEventType where
  | Pending
  | Ready
  | Error
  | other (tag : Nat)
  deriving DecidableEq, Repr

/-- A C event as passed to the demo callback. -/
structure CEvent where
  var : String
  event_type : CEventType
  event_data : CEventData
  deriving DecidableEq, Repr

/-- The component operations a demo driver issues, in program order. -/
inductive DemoOp where
  | newComp
  | subscribeV (n : String)
  | setV (n : String) (v : Int)
  | updateComp
  | freeComp
  deriving DecidableEq, Repr

namespace DemoBindings

/-- `handle_event` of `src/hotdrink-c/main.c`: switch on `e.event_type`,
printing one line per case and nothing in the `default:` case.  Returns the
printed lines. -/
def handle_event (e : CEvent) : List String :=
  match e.event_type with
  | .Pending => [e.var ++ " is pending"]
  | .Ready => [e.var ++ " = " ++ toString e.event_data.value]
  | .Error => [e.var ++ " failed: " ++ e.event_data.error]
  | .other _ => []

/-- The component operations issued by `main` of `src/hotdrink-c/main.c`. -/
def mainOps : List DemoOp :=
  [.newComp, .subscribeV "a", .subscribeV "b", .subscribeV "c",
   .setV "a" 3, .updateComp, .setV "b" 5, .updateComp, .freeComp]

/-- The return code of `main` of `src/hotdrink-c/main.c`. -/
def mainResult : Int := 0

end DemoBindings

namespace DemoHotdrink

/-- `handle_event` of `src/hotdrink-c/src/main.c`: switch on `e.event_type`,
reading `data.value` for Ready and `data.error` for Error.  Returns the
printed lines. -/
def handle_event (e : CEvent) : List String :=
  match e.event_type with
  | .Pending => [e.var ++ " is pending"]
  | .Ready => [e.var ++ " = " ++ toString e.event_data.value]
  | .Error => [e.var ++ " failed: " ++ e.event_data.error]
  | .other _ => []

/-- The component operations issued by `main` of `src/hotdrink-c/src/main.c`. -/
def mainOps : List DemoOp :=
  [.newComp, .subscribeV "a", .subscribeV "b", .subscribeV "c",
   .setV "a" 3, .updateComp, .setV "b" 5, .updateComp, .freeComp]

/-- The return code of `main` of `src/hotdrink-c/src/main.c`. -/
def mainResult : Int := 0

end DemoHotdrink

/-! ### Derived notions used by the statements -/

/-- The variable names passed to `set_variable` anywhere in a call
sequence. -/
def touchedVars : List EngineOp → List String
  | [] => []
  | .setv n _ :: ops => n :: touchedVars ops
  | .upd :: ops => touchedVars ops

/-- Transitive dependency: `ReachFrom g s v` holds when `v` is in `s` or is
reachable from `s` by following the input→output edges of the methods of
`g`. -/
inductive ReachFrom (g : List Method) (s : List String) : String → Prop
  | base (v : String) : v ∈ s → ReachFrom g s v
  | step (x y : String) (m : Method) :
      ReachFrom g s x → m ∈ g → x ∈ m.inputs → y ∈ m.outputs →
      ReachFrom g s y

/-- One dataflow edge of a plan: some method of the plan consumes `x` and
produces `y`. -/
def Feeds (plan : List PMeth) (x y : String) : Prop :=
  ∃ pm, pm ∈ plan ∧ x ∈ pm.m.inputs ∧ y ∈ pm.m.outputs

/-- Reachability along the dataflow edges of a plan (reflexive-transitive). -/
inductive PlanReach (plan : List PMeth) : String → String → Prop
  | refl (x : String) : PlanReach plan x x
  | step (x y z : String) : Feeds plan x y → PlanReach plan y z → PlanReach plan x z

/-- Index of the first method of the plan producing `v`, if any. -/
def prodIdx : List PMeth → String → Option Nat
  | [], _ => none
  | pm :: rest, v =>
    if v ∈ pm.m.outputs then some 0 else (prodIdx rest v).map (· + 1)

/-- Topological level of a variable in a plan: `0` for variables the plan
never writes, `k + 1` for variables written by the method at index `k`. -/
def lvl (plan : List PMeth) (v : String) : Nat :=
  match prodIdx plan v with
  | some k => k + 1
  | none => 0

/-- Well-formedness of a plan suffix relative to the produced-so-far set:
each method's inputs are already produced or stable outside the dirty
region, and its outputs are unwritten dirty-region variables. -/
inductive PlanOK (c : Component) (d : List String) : List String → List PMeth → Prop
  | nil (produced : List String) : PlanOK c d produced []
  | cons (produced : List String) (pm : PMeth) (rest : List PMeth) :
      (∀ i ∈ pm.m.inputs, i ∈ produced ∨ (¬ i ∈ d ∧ (lookupValue c i).isSome)) →
      (∀ o ∈ pm.m.outputs, o ∈ d ∧ ¬ o ∈ produced) →
      PlanOK c d (produced ++ pm.m.outputs) rest →
      PlanOK c d produced (pm :: rest)

/-- One public API call, as a relation between component states, recording
the delivered events.  The three clauses are the successful set, the
rejected set (unknown name: synchronous error, no event, no state change)
and the update cycle. -/
inductive StepR : Component → EngineOp → Component → List Event → Prop
  | setKnown (c : Component) (n : String) (v : Int) (c' : Component) :
      component_set_variable c n v = .ok c' → StepR c (.setv n v) c' []
  | setUnknown (c : Component) (n : String) (v : Int) :
      component_set_variable c n v = .error .unknownVariable →
      StepR c (.setv n v) c []
  | upd (c : Component) :
      StepR c .upd (component_update c).1 (component_update c).2

/-- A run of a call sequence, concatenating the delivered events. -/
inductive TraceR : Component → List EngineOp → Component → List Event → Prop
  | nil (c : Component) : TraceR c [] c []
  | cons (c : Component) (op : EngineOp) (c1 : Component) (e1 : List Event)
      (ops : List EngineOp) (c2 : Component) (e2 : List Event) :
      StepR c op c1 e1 → TraceR c1 ops c2 e2 →
      TraceR c (op :: ops) c2 (e1 ++ e2)

/-! ## Theorems -/

theorem depStep_nil (g : List Method) : depStep g [] = [] := by
  induction g with
  | nil => rfl
  | cons m rest ih =>
    simp only [depStep, List.foldr_cons] at ih ⊢
    simp [ih]

theorem depIter_nil (g : List Method) (n : Nat) : depIter g n [] = [] := by
  induction n with
  | zero => rfl
  | succ k ih => simp [depIter, depStep_nil, ih]

theorem dependents_of_nil (g : List Method) : dependents_of g [] = [] := by
  simp [dependents_of, depIter_nil]

theorem candidateCon_nil (con : Constraint) : candidateCon [] con = false := by
  simp [candidateCon]

theorem update_clears_changed (c : Component) :
    (component_update c).1.changed = [] := rfl

theorem update_of_unchanged (c : Component) (h : c.changed = []) :
    component_update c = (c, []) := by
  obtain ⟨vs, cons, subs, ch⟩ := c
  simp only at h
  subst h
  simp [component_update, makePlan, dependents_of_nil, candidateCon_nil,
    List.filter_eq_nil_iff, execPlan, unsatOutputs, writeErrors, planLoop]

/-- C3: for every component (hence every reachable state), a second `update`
with no intervening `set_variable` delivers no events. -/
theorem second_update_delivers_no_events (c : Component) :
    (component_update (component_update c).1).2 = [] := by
  rw [update_of_unchanged _ (update_clears_changed c)]

/-- C2: on the freshly constructed demo component with a, b, c subscribed,
`set_variable(a, 3); update()` delivers exactly the event `a: Ready(3)`, and
no event for b and none for c. -/
theorem demo_first_cycle_events :
    deliveredTo demoComponent.subs
        (runSeq demoComponent [.setv "a" 3, .upd]).2 = [⟨"a", .ready 3⟩] ∧
      (deliveredTo demoComponent.subs
        (runSeq demoComponent [.setv "a" 3, .upd]).2).filter
          (fun e => e.var == "b") = [] ∧
      (deliveredTo demoComponent.subs
        (runSeq demoComponent [.setv "a" 3, .upd]).2).filter
          (fun e => e.var == "c") = [] :=
  ⟨rfl, rfl, rfl⟩

/-- C1: after `set_variable(a, 3); update()`, the call sequence
`set_variable(b, 5); update()` delivers exactly `b: Ready(5)`, then
`c: Pending`, then `c: Ready(8)`, and no other events. -/
theorem demo_second_cycle_events :
    deliveredTo demoComponent.subs
        (runSeq (runSeq demoComponent [.setv "a" 3, .upd]).1
          [.setv "b" 5, .upd]).2
      = [⟨"b", .ready 5⟩, ⟨"c", .pending⟩, ⟨"c", .ready 8⟩] :=
  rfl

/-- C6: `component_set_variable` on a name denoting no variable of the
component returns UnknownVariable synchronously, delivers no event and
leaves the component unchanged; on a known name it returns success. -/
theorem set_variable_unknown_vs_known (c : Component) (n : String) (v : Int) :
    ((∀ s ∈ c.vars, s.name ≠ n) →
        component_set_variable c n v = .error .unknownVariable ∧
        runOp c (.setv n v) = (c, [])) ∧
    ((∃ s, s ∈ c.vars ∧ s.name = n) →
        ∃ c', component_set_variable c n v = .ok c') := by
  constructor
  · intro h
    have hany : ¬ (c.vars.any (fun s => s.name = n) = true) := by
      simp only [List.any_eq_true, decide_eq_true_eq]
      rintro ⟨s, hs, hn⟩
      exact h s hs hn
    constructor
    · simp [component_set_variable, hany]
    · simp [runOp, component_set_variable, hany]
  · rintro ⟨s, hs, hn⟩
    have hany : c.vars.any (fun s => s.name = n) = true := by
      simp only [List.any_eq_true, decide_eq_true_eq]
      exact ⟨s, hs, hn⟩
    exact ⟨{ (updateSlot c n fun t => { t with value := some v, state := .pending }) with
              changed := if n ∈ c.changed then c.changed else c.changed ++ [n] },
           by simp [component_set_variable, hany]⟩

theorem set_variable_unknown_vs_known_witness :
    (component_set_variable demoComponent "z" 7 = .error .unknownVariable ∧
      runOp demoComponent (.setv "z" 7) = (demoComponent, [])) ∧
    ∃ c', component_set_variable demoComponent "a" 7 = .ok c' :=
  ⟨(set_variable_unknown_vs_known demoComponent "z" 7).1 (by decide),
    (set_variable_unknown_vs_known demoComponent "a" 7).2
      ⟨⟨"a", none, .ready⟩, by decide, rfl⟩⟩

/-- C9: both demo `handle_event` functions terminate with exactly one
printed line for Pending (reading no payload), Ready (reading the payload as
the computed integer) and Error (reading the payload as the diagnostic
string), and print nothing for any other event type. -/
theorem handle_event_payload_discipline :
    ∀ (v : String) (d : CEventData) (tag : Nat),
      DemoBindings.handle_event ⟨v, .Pending, d⟩ = [v ++ " is pending"] ∧
      DemoBindings.handle_event ⟨v, .Ready, d⟩ = [v ++ " = " ++ toString d.value] ∧
      DemoBindings.handle_event ⟨v, .Error, d⟩ = [v ++ " failed: " ++ d.error] ∧
      DemoBindings.handle_event ⟨v, .other tag, d⟩ = [] ∧
      DemoHotdrink.handle_event ⟨v, .Pending, d⟩ = [v ++ " is pending"] ∧
      DemoHotdrink.handle_event ⟨v, .Ready, d⟩ = [v ++ " = " ++ toString d.value] ∧
      DemoHotdrink.handle_event ⟨v, .Error, d⟩ = [v ++ " failed: " ++ d.error] ∧
      DemoHotdrink.handle_event ⟨v, .other tag, d⟩ = [] :=
  fun _ _ _ => ⟨rfl, rfl, rfl, rfl, rfl, rfl, rfl, rfl⟩

theorem trace_total (c : Component) (ops : List EngineOp) :
    TraceR c ops (runSeq c ops).1 (runSeq c ops).2 := by
  induction ops generalizing c with
  | nil => exact TraceR.nil c
  | cons op ops ih =>
    have hstep : StepR c op (runOp c op).1 (runOp c op).2 := by
      cases op with
      | setv n v =>
        cases h : component_set_variable c n v with
        | ok c' =>
          have hr : runOp c (.setv n v) = (c', []) := by simp [runOp, h]
          rw [hr]
          exact StepR.setKnown c n v c' h
        | error e =>
          cases e
          have hr : runOp c (.setv n v) = (c, []) := by simp [runOp, h]
          rw [hr]
          exact StepR.setUnknown c n v h
      | upd => exact StepR.upd c
    have ht := TraceR.cons c op _ _ ops _ _ hstep (ih (runOp c op).1)
    simpa [runSeq] using ht

theorem step_agrees (c : Component) (op : EngineOp) (c1 : Component)
    (e1 : List Event) (hstep : StepR c op c1 e1) :
    c1 = (runOp c op).1 ∧ e1 = (runOp c op).2 := by
  cases hstep with
  | setKnown n v cz h => constructor <;> simp [runOp, h]
  | setUnknown n v h => constructor <;> simp [runOp, h]
  | upd => exact ⟨rfl, rfl⟩

theorem trace_agrees (c : Component) (ops : List EngineOp) (c' : Component)
    (e : List Event) (h : TraceR c ops c' e) :
    c' = (runSeq c ops).1 ∧ e = (runSeq c ops).2 := by
  induction h with
  | nil c => exact ⟨rfl, rfl⟩
  | cons c op c1 e1 ops c2 e2 hstep htr ih =>
    obtain ⟨hc1, he1⟩ := step_agrees c op c1 e1 hstep
    subst hc1
    subst he1
    refine ⟨?_, ?_⟩ <;> simp [runSeq, ih.1, ih.2]

/-- C4: runs of the same call sequence are deterministic: any two runs
deliver identical event sequences (and end in identical states), since
method selection ties are broken by a fixed rule (declaration order) and
every step of the semantics is a function of the current state. -/
theorem trace_deterministic (c : Component) (ops : List EngineOp)
    (c1 : Component) (e1 : List Event) (c2 : Component) (e2 : List Event)
    (h1 : TraceR c ops c1 e1) (h2 : TraceR c ops c2 e2) :
    e1 = e2 ∧ c1 = c2 := by
  obtain ⟨hc1, he1⟩ := trace_agrees _ _ _ _ h1
  obtain ⟨hc2, he2⟩ := trace_agrees _ _ _ _ h2
  exact ⟨he1.trans he2.symm, hc1.trans hc2.symm⟩

theorem trace_deterministic_witness :
    (runSeq demoComponent [.setv "a" 3, .upd]).2
      = [⟨"a", EventKind.ready 3⟩] ∧
    (runSeq demoComponent [.setv "a" 3, .upd]).1
      = (runSeq demoComponent [.setv "a" 3, .upd]).1 :=
  trace_deterministic demoComponent [.setv "a" 3, .upd] _ _ _ _
    (trace_total demoComponent [.setv "a" 3, .upd])
    (trace_total demoComponent [.setv "a" 3, .upd] :
      TraceR demoComponent [.setv "a" 3, .upd]
        (runSeq demoComponent [.setv "a" 3, .upd]).1
        [⟨"a", EventKind.ready 3⟩])

/-- C10: the two demo drivers are observationally equivalent: they issue the
identical operation sequence (create; subscribe a, b, c; set a to 3; update;
set b to 5; update; free), both return 0, and their `handle_event` functions
print the same line on every event. -/
theorem demo_drivers_equivalent :
    DemoBindings.mainOps = DemoHotdrink.mainOps ∧
    DemoBindings.mainOps =
      [.newComp, .subscribeV "a", .subscribeV "b", .subscribeV "c",
       .setV "a" 3, .updateComp, .setV "b" 5, .updateComp, .freeComp] ∧
    DemoBindings.mainResult = 0 ∧ DemoHotdrink.mainResult = 0 ∧
    ∀ e : CEvent, DemoBindings.handle_event e = DemoHotdrink.handle_event e := by
  refine ⟨rfl, rfl, rfl, rfl, fun e => ?_⟩
  obtain ⟨v, t, d⟩ := e
  cases t <;> rfl

theorem selectable_props (c : Component) (d produced : List String) (m : Method)
    (h : selectable c d produced m = true) :
    (∀ i ∈ m.inputs, i ∈ produced ∨ (¬ i ∈ d ∧ (lookupValue c i).isSome)) ∧
    (∀ o ∈ m.outputs, o ∈ d ∧ ¬ o ∈ produced) := by
  simp only [selectable, availableIn, Bool.and_eq_true, List.all_eq_true,
    Bool.or_eq_true, decide_eq_true_eq] at h
  obtain ⟨h1, h2⟩ := h
  exact ⟨fun i hi => h1 i hi, fun o ho => h2 o ho⟩

theorem pickMethod_sound (c : Component) (d produced : List String)
    (ms : List Method) (m : Method) (h : pickMethod c d produced ms = some m) :
    selectable c d produced m = true := by
  have hmem : m ∈ ms.filter (selectable c d produced) := List.argmax_mem h
  exact (List.mem_filter.mp hmem).2

theorem firstSel_sound (c : Component) (d produced : List String) :
    ∀ (rem : List (Nat × Constraint)) (pm : PMeth) (rem' : List (Nat × Constraint)),
      firstSel c d produced rem = some (pm, rem') →
      selectable c d produced pm.m = true := by
  intro rem
  induction rem with
  | nil =>
    intro pm rem' h
    exact Option.noConfusion h
  | cons ic rest ih =>
    intro pm rem' h
    obtain ⟨i, con⟩ := ic
    rw [firstSel] at h
    cases hp : pickMethod c d produced con.methods with
    | some m =>
      rw [hp] at h
      cases h
      exact pickMethod_sound c d produced con.methods _ hp
    | none =>
      rw [hp] at h
      cases hr : firstSel c d produced rest with
      | some pr =>
        obtain ⟨pmx, restx⟩ := pr
        rw [hr] at h
        cases h
        exact ih _ _ hr
      | none =>
        rw [hr] at h
        cases h

theorem planLoop_ok (c : Component) (d : List String) :
    ∀ (fuel : Nat) (rem : List (Nat × Constraint)) (produced : List String),
      PlanOK c d produced (planLoop c d fuel rem produced).1 := by
  intro fuel
  induction fuel with
  | zero => intro rem produced; exact PlanOK.nil produced
  | succ k ih =>
    intro rem produced
    rw [planLoop]
    cases hf : firstSel c d produced rem with
    | none => exact PlanOK.nil produced
    | some pr =>
      obtain ⟨pm, rem'⟩ := pr
      have hsel := selectable_props c d produced pm.m
        (firstSel_sound c d produced rem pm rem' hf)
      exact PlanOK.cons produced pm _ hsel.1 hsel.2
        (ih rem' (produced ++ pm.m.outputs))

theorem makePlan_ok (c : Component) :
    PlanOK c (c.changed ++ dependents_of (allMethods c.constraints) c.changed)
      c.changed (makePlan c).1 :=
  planLoop_ok c _ _ _ _

theorem planOK_out_fresh (c : Component) (d : List String)
    (p : List String) (l : List PMeth) (h : PlanOK c d p l) :
    ∀ pm ∈ l, ∀ o ∈ pm.m.outputs, ¬ o ∈ p := by
  induction h with
  | nil _ => intro pm hpm; cases hpm
  | cons produced pm rest hin hout hrest ih =>
    intro pm' hpm' o ho
    rcases List.mem_cons.mp hpm' with rfl | hmem
    · exact (hout o ho).2
    · intro hp
      exact ih pm' hmem o ho (List.mem_append_left _ hp)

theorem planOK_out_d (c : Component) (d : List String)
    (p : List String) (l : List PMeth) (h : PlanOK c d p l) :
    ∀ pm ∈ l, ∀ o ∈ pm.m.outputs, o ∈ d := by
  induction h with
  | nil _ => intro pm hpm; cases hpm
  | cons produced pm rest hin hout hrest ih =>
    intro pm' hpm' o ho
    rcases List.mem_cons.mp hpm' with rfl | hmem
    · exact (hout o ho).1
    · exact ih pm' hmem o ho

theorem prodIdx_eq_none (l : List PMeth) (v : String)
    (h : ∀ pm ∈ l, ¬ v ∈ pm.m.outputs) : prodIdx l v = none := by
  induction l with
  | nil => rfl
  | cons pm rest ih =>
    have h0 := h pm (List.mem_cons_self pm rest)
    simp only [prodIdx, if_neg h0]
    rw [ih (fun q hq => h q (List.mem_cons_of_mem pm hq))]
    rfl

theorem prodIdx_isSome_of_out (l : List PMeth) (v : String) (pm : PMeth)
    (h : pm ∈ l) (ho : v ∈ pm.m.outputs) : (prodIdx l v).isSome := by
  induction l with
  | nil => cases h
  | cons q rest ih =>
    by_cases hq : v ∈ q.m.outputs
    · simp [prodIdx, hq]
    · rcases List.mem_cons.mp h with rfl | hmem
      · exact absurd ho hq
      · simp only [prodIdx, if_neg hq]
        have := ih hmem
        cases hr : prodIdx rest v with
        | none => rw [hr] at this; simp at this
        | some k => simp [hr]

theorem feeds_lvl_head (c : Component) (d : List String) (p : List String)
    (pm0 : PMeth) (rest : List PMeth)
    (hin : ∀ i ∈ pm0.m.inputs, i ∈ p ∨ (¬ i ∈ d ∧ (lookupValue c i).isSome))
    (hout : ∀ o ∈ pm0.m.outputs, o ∈ d ∧ ¬ o ∈ p)
    (hrest : PlanOK c d (p ++ pm0.m.outputs) rest)
    (x y : String) (hx : x ∈ pm0.m.inputs) (hy : y ∈ pm0.m.outputs) :
    lvl (pm0 :: rest) x < lvl (pm0 :: rest) y := by
  have hy1 : lvl (pm0 :: rest) y = 1 := by simp [lvl, prodIdx, hy]
  have hxp := hin x hx
  have hx0 : ¬ x ∈ pm0.m.outputs := by
    intro hc
    rcases hxp with hp1 | ⟨hnd, _⟩
    · exact (hout x hc).2 hp1
    · exact hnd (hout x hc).1
  have hxr : prodIdx rest x = none := by
    apply prodIdx_eq_none
    intro pm'' hpm'' hc
    rcases hxp with hp1 | ⟨hnd, _⟩
    · exact planOK_out_fresh c d _ rest hrest pm'' hpm'' x hc
        (List.mem_append_left _ hp1)
    · exact hnd (planOK_out_d c d _ rest hrest pm'' hpm'' x hc)
  have hx1 : lvl (pm0 :: rest) x = 0 := by
    simp [lvl, prodIdx, hx0, hxr]
  rw [hx1, hy1]
  exact Nat.zero_lt_one

theorem feeds_lvl_tail (c : Component) (d : List String) (p : List String)
    (pm0 : PMeth) (rest : List PMeth)
    (hrest : PlanOK c d (p ++ pm0.m.outputs) rest)
    (x y : String) (pm' : PMeth) (hmem : pm' ∈ rest)
    (_hx : x ∈ pm'.m.inputs) (hy : y ∈ pm'.m.outputs)
    (ihlt : lvl rest x < lvl rest y) :
    lvl (pm0 :: rest) x < lvl (pm0 :: rest) y := by
  have hy0 : ¬ y ∈ pm0.m.outputs := by
    intro hc
    exact planOK_out_fresh c d _ rest hrest pm' hmem y hy
      (List.mem_append_right _ hc)
  obtain ⟨k, hk⟩ := Option.isSome_iff_exists.mp
    (prodIdx_isSome_of_out rest y pm' hmem hy)
  have hyl : lvl (pm0 :: rest) y = k + 2 := by
    simp [lvl, prodIdx, hy0, hk]
  by_cases hx0 : x ∈ pm0.m.outputs
  · have hxl : lvl (pm0 :: rest) x = 1 := by simp [lvl, prodIdx, hx0]
    rw [hxl, hyl]
    omega
  · cases hj : prodIdx rest x with
    | none =>
      have hxl : lvl (pm0 :: rest) x = 0 := by
        simp [lvl, prodIdx, hx0, hj]
      rw [hxl, hyl]
      omega
    | some j =>
      have hxl : lvl (pm0 :: rest) x = j + 2 := by
        simp [lvl, prodIdx, hx0, hj]
      have hjk : j + 1 < k + 1 := by
        have e1 : lvl rest x = j + 1 := by simp [lvl, hj]
        have e2 : lvl rest y = k + 1 := by simp [lvl, hk]
        rw [e1, e2] at ihlt
        exact ihlt
      rw [hxl, hyl]
      omega

theorem feeds_lvl_lt (c : Component) (d : List String) :
    ∀ (l : List PMeth) (p : List String), PlanOK c d p l →
      ∀ x y, Feeds l x y → lvl l x < lvl l y := by
  intro l
  induction l with
  | nil =>
    intro p h x y hf
    obtain ⟨pm, hpm, _⟩ := hf
    cases hpm
  | cons pm0 rest ih =>
    intro p h x y hf
    cases h with
    | cons pq pmq restq hin hout hrest =>
      obtain ⟨pm', hpm', hx, hy⟩ := hf
      rcases List.mem_cons.mp hpm' with heq | hmem
      · exact feeds_lvl_head c d p pm0 rest hin hout hrest x y
          (heq ▸ hx) (heq ▸ hy)
      · exact feeds_lvl_tail c d p pm0 rest hrest x y pm' hmem hx hy
          (ih _ hrest x y ⟨pm', hmem, hx, hy⟩)

theorem mem_insertAll (outs acc : List String) (x : String)
    (h : x ∈ outs.foldr (fun o acc2 => if o ∈ acc2 then acc2 else o :: acc2) acc) :
    x ∈ outs ∨ x ∈ acc := by
  induction outs with
  | nil => exact Or.inr h
  | cons o rest ih =>
    simp only [List.foldr_cons] at h
    by_cases ho : o ∈ rest.foldr (fun o acc2 => if o ∈ acc2 then acc2 else o :: acc2) acc
    · rw [if_pos ho] at h
      rcases ih h with h1 | h2
      · exact Or.inl (List.mem_cons_of_mem _ h1)
      · exact Or.inr h2
    · rw [if_neg ho] at h
      rcases List.mem_cons.mp h with rfl | hmem
      · exact Or.inl (List.mem_cons_self _ _)
      · rcases ih hmem with h1 | h2
        · exact Or.inl (List.mem_cons_of_mem _ h1)
        · exact Or.inr h2

theorem depStep_sound (g : List Method) (s : List String) (x : String)
    (h : x ∈ depStep g s) :
    x ∈ s ∨ ∃ m, m ∈ g ∧ (∃ i, i ∈ m.inputs ∧ i ∈ s) ∧ x ∈ m.outputs := by
  induction g with
  | nil => exact Or.inl h
  | cons m rest ih =>
    simp only [depStep, List.foldr_cons] at h ih
    by_cases hc : m.inputs.any (fun i => i ∈ s) = true
    · rw [if_pos hc] at h
      rcases mem_insertAll _ _ _ h with h1 | h2
      · obtain ⟨i, hi, his⟩ := List.any_eq_true.mp hc
        exact Or.inr ⟨m, List.mem_cons_self _ _,
          ⟨i, hi, of_decide_eq_true his⟩, h1⟩
      · rcases ih h2 with h3 | ⟨m', hm', hrest⟩
        · exact Or.inl h3
        · exact Or.inr ⟨m', List.mem_cons_of_mem _ hm', hrest⟩
    · rw [if_neg hc] at h
      rcases ih h with h3 | ⟨m', hm', hrest⟩
      · exact Or.inl h3
      · exact Or.inr ⟨m', List.mem_cons_of_mem _ hm', hrest⟩

theorem depIter_transfer (g : List Method) (s : List String) :
    ∀ (n : Nat) (t : List String), (∀ z ∈ t, ReachFrom g s z) →
      ∀ x ∈ depIter g n t, ReachFrom g s x := by
  intro n
  induction n with
  | zero => intro t ht x hx; exact ht x hx
  | succ k ih =>
    intro t ht x hx
    rw [depIter] at hx
    refine ih (depStep g t) ?_ x hx
    intro z hz
    rcases depStep_sound g t z hz with h1 | ⟨m, hm, ⟨i, hi, his⟩, hout⟩
    · exact ht z h1
    · exact ReachFrom.step i z m (ht i his) hm hi hout

theorem dependents_of_sound (g : List Method) (s : List String) (x : String)
    (h : x ∈ dependents_of g s) : ReachFrom g s x := by
  have hx : x ∈ depIter g g.length s := (List.mem_filter.mp h).1
  exact depIter_transfer g s g.length s (fun z hz => ReachFrom.base z hz) x hx

theorem reachFrom_trans (g : List Method) (s t : List String)
    (hst : ∀ z ∈ s, ReachFrom g t z) :
    ∀ x, ReachFrom g s x → ReachFrom g t x := by
  intro x h
  induction h with
  | base v hv => exact hst v hv
  | step a b m _ hm ha hb ih => exact ReachFrom.step a b m ih hm ha hb

theorem reachFrom_mono (g : List Method) (s t : List String)
    (hst : ∀ z ∈ s, z ∈ t) :
    ∀ x, ReachFrom g s x → ReachFrom g t x :=
  reachFrom_trans g s t (fun z hz => ReachFrom.base z (hst z hz))

theorem writeErrors_events (msg : String) :
    ∀ (l : List String) (c : Component) (e : Event),
      e ∈ (writeErrors c msg l).2 → e.var ∈ l := by
  intro l
  induction l with
  | nil => intro c e he; exact absurd he (List.not_mem_nil e)
  | cons n ns ih =>
    intro c e he
    rw [writeErrors] at he
    rcases List.mem_cons.mp he with rfl | hmem
    · exact List.mem_cons_self _ _
    · exact List.mem_cons_of_mem _ (ih (markError c n msg) e hmem)

theorem writeErrors_complete (msg : String) :
    ∀ (l : List String) (c : Component) (n : String), n ∈ l →
      (⟨n, .error msg⟩ : Event) ∈ (writeErrors c msg l).2 := by
  intro l
  induction l with
  | nil => intro c n hn; exact absurd hn (List.not_mem_nil n)
  | cons m ms ih =>
    intro c n hn
    rw [writeErrors]
    rcases List.mem_cons.mp hn with rfl | hmem
    · exact List.mem_cons_self _ _
    · exact List.mem_cons_of_mem _ (ih (markError c m msg) n hmem)

theorem writeOutputs_events :
    ∀ (ns : List String) (vs : List Int) (c : Component) (e : Event),
      e ∈ (writeOutputs c ns vs).2 → e.var ∈ ns := by
  intro ns
  induction ns with
  | nil => intro vs c e he; exact absurd he (List.not_mem_nil e)
  | cons n ns ih =>
    intro vs c e he
    cases vs with
    | nil => exact absurd he (List.not_mem_nil e)
    | cons v vs =>
      rw [writeOutputs] at he
      rcases List.mem_cons.mp he with rfl | hmem
      · exact List.mem_cons_self _ _
      · exact List.mem_cons_of_mem _ (ih vs (markReadyVal c n v) e hmem)

theorem writeOutputs_complete :
    ∀ (ns : List String) (vs : List Int) (c : Component) (n : String),
      vs.length = ns.length → n ∈ ns →
      ∃ v, (⟨n, .ready v⟩ : Event) ∈ (writeOutputs c ns vs).2 := by
  intro ns
  induction ns with
  | nil => intro vs c n _ hn; exact absurd hn (List.not_mem_nil n)
  | cons m ms ih =>
    intro vs c n hlen hn
    cases vs with
    | nil => exact absurd hlen (by simp)
    | cons v vs =>
      rw [writeOutputs]
      rcases List.mem_cons.mp hn with rfl | hmem
      · exact ⟨v, List.mem_cons_self _ _⟩
      · obtain ⟨w, hw⟩ := ih vs (markReadyVal c m v) n
          (by simpa using hlen) hmem
        exact ⟨w, List.mem_cons_of_mem _ hw⟩

theorem execStep_events_sound (g : List Method) (dl : List String) (st : ExecSt)
    (pm : PMeth) (hout : ∀ o ∈ pm.m.outputs, o ∈ dl)
    (e : Event) (he : e ∈ (execStep g st pm).events) :
    e ∈ st.events ∨ e.var ∈ dl ∨ ReachFrom g dl e.var := by
  unfold execStep at he
  split at he
  · exact Or.inl he
  · split at he
    · exact Or.inl he
    · split at he
      · simp only [List.append_assoc, List.mem_append] at he
        rcases he with he | he | he
        · exact Or.inl he
        · obtain ⟨o, ho, rfl⟩ := List.mem_map.mp he
          exact Or.inr (Or.inl (hout o ho))
        · exact Or.inr (Or.inl (hout _ (writeOutputs_events _ _ _ _ he)))
      · simp only [List.append_assoc, List.mem_append] at he
        rcases he with he | he | he | he
        · exact Or.inl he
        · obtain ⟨o, ho, rfl⟩ := List.mem_map.mp he
          exact Or.inr (Or.inl (hout o ho))
        · exact Or.inr (Or.inl (hout _ (writeErrors_events _ _ _ _ he)))
        · have hvar := writeErrors_events _ _ _ _ he
          have hdep : e.var ∈ dependents_of g pm.m.outputs :=
            (List.mem_filter.mp hvar).1
          exact Or.inr (Or.inr (reachFrom_mono g pm.m.outputs dl hout e.var
            (dependents_of_sound g pm.m.outputs e.var hdep)))

theorem unsatOutputs_subset_d (c : Component) (d produced : List String)
    (rem : List (Nat × Constraint)) :
    ∀ v ∈ unsatOutputs c d produced rem, v ∈ d := by
  intro v hv
  unfold unsatOutputs at hv
  obtain ⟨ic, _hic, hmem⟩ := List.mem_flatMap.mp hv
  split at hmem
  · exact absurd hmem (List.not_mem_nil v)
  · have hp := (List.mem_filter.mp hmem).2
    simp only [Bool.and_eq_true, decide_eq_true_eq] at hp
    exact hp.1

theorem updateSlot_constraints (c : Component) (n : String) (f : VarSlot → VarSlot) :
    (updateSlot c n f).constraints = c.constraints := rfl

theorem foldl_markReady_constraints :
    ∀ (l : List String) (c : Component),
      (l.foldl markReady c).constraints = c.constraints := by
  intro l
  induction l with
  | nil => intro c; rfl
  | cons n ns ih =>
    intro c
    rw [List.foldl_cons]
    exact (ih (markReady c n)).trans rfl

theorem foldl_markPending_constraints :
    ∀ (l : List String) (c : Component),
      (l.foldl markPending c).constraints = c.constraints := by
  intro l
  induction l with
  | nil => intro c; rfl
  | cons n ns ih =>
    intro c
    rw [List.foldl_cons]
    exact (ih (markPending c n)).trans rfl

theorem writeOutputs_constraints :
    ∀ (ns : List String) (vs : List Int) (c : Component),
      (writeOutputs c ns vs).1.constraints = c.constraints := by
  intro ns
  induction ns with
  | nil => intro vs c; rfl
  | cons n ns ih =>
    intro vs c
    cases vs with
    | nil => rfl
    | cons v vs =>
      rw [writeOutputs]
      exact (ih vs (markReadyVal c n v)).trans rfl

theorem writeErrors_constraints (msg : String) :
    ∀ (l : List String) (c : Component),
      (writeErrors c msg l).1.constraints = c.constraints := by
  intro l
  induction l with
  | nil => intro c; rfl
  | cons n ns ih =>
    intro c
    rw [writeErrors]
    exact (ih (markError c n msg)).trans rfl

theorem execStep_constraints (g : List Method) (st : ExecSt) (pm : PMeth) :
    (execStep g st pm).comp.constraints = st.comp.constraints := by
  unfold execStep
  split
  · rfl
  · split
    · rfl
    · split
      · exact (writeOutputs_constraints _ _ _).trans
          (foldl_markPending_constraints _ _)
      · exact ((writeErrors_constraints _ _ _).trans
          (writeErrors_constraints _ _ _)).trans
          (foldl_markPending_constraints _ _)

theorem execPlan_constraints (g : List Method) :
    ∀ (plan : List PMeth) (st : ExecSt),
      (execPlan g st plan).comp.constraints = st.comp.constraints := by
  intro plan
  induction plan with
  | nil => intro st; rfl
  | cons pm rest ih =>
    intro st
    exact (ih (execStep g st pm)).trans (execStep_constraints g st pm)

theorem update_constraints (c : Component) :
    (component_update c).1.constraints = c.constraints := by
  simp only [component_update]
  exact ((execPlan_constraints _ _ _).trans
    (writeErrors_constraints _ _ _)).trans (foldl_markReady_constraints _ _)

theorem set_ok_facts (c : Component) (n : String) (v : Int) (c' : Component)
    (h : component_set_variable c n v = .ok c') :
    c'.constraints = c.constraints ∧
      ∀ x ∈ c'.changed, x ∈ c.changed ∨ x = n := by
  unfold component_set_variable at h
  split at h
  · cases h
    refine ⟨rfl, ?_⟩
    intro x hx
    simp only at hx
    split at hx
    · exact Or.inl hx
    · rcases List.mem_append.mp hx with h1 | h2
      · exact Or.inl h1
      · exact Or.inr (List.mem_singleton.mp h2)
  · cases h

theorem execPlan_events_sound (g : List Method) (dl : List String) :
    ∀ (plan : List PMeth) (st : ExecSt),
      (∀ pm ∈ plan, ∀ o ∈ pm.m.outputs, o ∈ dl) →
      ∀ e ∈ (execPlan g st plan).events,
        e ∈ st.events ∨ e.var ∈ dl ∨ ReachFrom g dl e.var := by
  intro plan
  induction plan with
  | nil => intro st _ e he; exact Or.inl he
  | cons pm rest ih =>
    intro st h e he
    have he' : e ∈ (execPlan g (execStep g st pm) rest).events := he
    rcases ih (execStep g st pm)
        (fun q hq => h q (List.mem_cons_of_mem _ hq)) e he' with h1 | h2
    · exact execStep_events_sound g dl st pm
        (h pm (List.mem_cons_self _ _)) e h1
    · exact Or.inr h2

theorem planReach_lvl_le (c : Component) (d : List String)
    (l : List PMeth) (p : List String) (h : PlanOK c d p l) :
    ∀ x y, PlanReach l x y → lvl l x ≤ lvl l y := by
  intro x y hr
  induction hr with
  | refl x => exact Nat.le_refl _
  | step x y z hf _ ih =>
    exact Nat.le_of_lt (Nat.lt_of_lt_of_le (feeds_lvl_lt c d l p h x y hf) ih)

theorem planOK_pairwise (c : Component) (d : List String)
    (p : List String) (l : List PMeth) (h : PlanOK c d p l) :
    l.Pairwise (fun a b => ∀ o, o ∈ a.m.outputs → o ∈ b.m.outputs → False) := by
  induction h with
  | nil _ => exact List.Pairwise.nil
  | cons produced pm rest hin hout hrest ih =>
    refine List.Pairwise.cons ?_ ih
    intro pm' hpm' o ho ho'
    exact planOK_out_fresh c d _ rest hrest pm' hpm' o ho'
      (List.mem_append_right _ ho)

/-- C7: every plan produced by the planner writes no output variable from
two distinct methods, and contains no method one of whose outputs feeds
back, transitively through the plan's dataflow, into one of its own
inputs. -/
theorem plan_invariants (c : Component) :
    (makePlan c).1.Pairwise
        (fun a b => ∀ o, o ∈ a.m.outputs → o ∈ b.m.outputs → False) ∧
    (∀ pm, pm ∈ (makePlan c).1 → ∀ o, o ∈ pm.m.outputs → ∀ i, i ∈ pm.m.inputs →
      ¬ PlanReach (makePlan c).1 o i) := by
  have hok := makePlan_ok c
  constructor
  · exact planOK_pairwise _ _ _ _ hok
  · intro pm hpm o ho i hi hreach
    have h1 : lvl (makePlan c).1 i < lvl (makePlan c).1 o :=
      feeds_lvl_lt _ _ _ _ hok i o ⟨pm, hpm, hi, ho⟩
    have h2 := planReach_lvl_le _ _ _ _ hok o i hreach
    omega

theorem plan_invariants_witness :
    ¬ PlanReach (makePlan demoDirty).1 "c" "a" :=
  (plan_invariants demoDirty).2 ⟨0, addMethod⟩
    (List.mem_cons_self _ _)
    "c" (by decide) "a" (by decide)

theorem update_events_sound (c : Component) (e : Event)
    (he : e ∈ (component_update c).2) :
    e.var ∈ c.changed ∨ ReachFrom (allMethods c.constraints) c.changed e.var := by
  have hD : ∀ z, z ∈ c.changed ++ dependents_of (allMethods c.constraints) c.changed →
      ReachFrom (allMethods c.constraints) c.changed z := by
    intro z hz
    rcases List.mem_append.mp hz with h1 | h2
    · exact ReachFrom.base z h1
    · exact dependents_of_sound _ _ z h2
  simp only [component_update, List.append_assoc, List.mem_append] at he
  rcases he with he | he | he
  · obtain ⟨n, hn, rfl⟩ := List.mem_map.mp he
    exact Or.inl hn
  · have hvar := writeErrors_events _ _ _ _ he
    have hd := unsatOutputs_subset_d c _ _ _ _ hvar
    exact Or.inr (hD _ hd)
  · have houts : ∀ pm ∈ (makePlan c).1, ∀ o ∈ pm.m.outputs,
        o ∈ c.changed ++ dependents_of (allMethods c.constraints) c.changed :=
      planOK_out_d c _ _ _ (makePlan_ok c)
    rcases execPlan_events_sound (allMethods c.constraints)
        (c.changed ++ dependents_of (allMethods c.constraints) c.changed)
        (makePlan c).1 _ houts e he with h0 | h1 | h2
    · exact absurd h0 (List.not_mem_nil e)
    · exact Or.inr (hD _ h1)
    · exact Or.inr (reachFrom_trans _ _ _ hD _ h2)

theorem runSeq_events_confined (t : List String) :
    ∀ (ops : List EngineOp) (c : Component),
      (∀ x ∈ c.changed, x ∈ t) →
      (∀ x ∈ touchedVars ops, x ∈ t) →
      ∀ e ∈ (runSeq c ops).2,
        e.var ∈ t ∨ ReachFrom (allMethods c.constraints) t e.var := by
  intro ops
  induction ops with
  | nil => intro c _ _ e he; exact absurd he (List.not_mem_nil e)
  | cons op rest ih =>
    intro c hch ht e he
    rw [runSeq] at he
    rcases List.mem_append.mp he with he1 | he2
    · cases op with
      | setv n v =>
        have hz : (runOp c (.setv n v)).2 = [] := by
          cases h : component_set_variable c n v <;> simp [runOp, h]
        rw [hz] at he1
        exact absurd he1 (List.not_mem_nil e)
      | upd =>
        rcases update_events_sound c e he1 with h1 | h2
        · exact Or.inl (hch _ h1)
        · exact Or.inr (reachFrom_mono _ c.changed t hch _ h2)
    · cases op with
      | setv n v =>
        have htn : n ∈ t := ht n (List.mem_cons_self _ _)
        have htr : ∀ x ∈ touchedVars rest, x ∈ t :=
          fun x hx => ht x (List.mem_cons_of_mem _ hx)
        cases h : component_set_variable c n v with
        | ok c' =>
          have hz : (runOp c (.setv n v)).1 = c' := by simp [runOp, h]
          rw [hz] at he2
          obtain ⟨hcons, hsub⟩ := set_ok_facts c n v c' h
          have := ih c'
            (fun x hx => by
              rcases hsub x hx with h1 | h2
              · exact hch x h1
              · exact h2 ▸ htn)
            htr e he2
          rw [hcons] at this
          exact this
        | error err =>
          have hz : (runOp c (.setv n v)).1 = c := by simp [runOp, h]
          rw [hz] at he2
          exact ih c hch htr e he2
      | upd =>
        have hz : (runOp c .upd).1 = (component_update c).1 := rfl
        rw [hz] at he2
        have := ih (component_update c).1
          (fun x hx => by
            rw [update_clears_changed c] at hx
            exact absurd hx (List.not_mem_nil x))
          (fun x hx => ht x hx) e he2
        rw [update_constraints c] at this
        exact this

/-- C5: a variable never passed to `set_variable` and not transitively
dependent on any variable passed to `set_variable` receives no event over
the whole run. -/
theorem untouched_vars_silent (c : Component) (ops : List EngineOp) (v : String)
    (hch : c.changed = []) (hnt : ¬ v ∈ touchedVars ops)
    (hnr : ¬ ReachFrom (allMethods c.constraints) (touchedVars ops) v) :
    ∀ e ∈ (runSeq c ops).2, e.var ≠ v := by
  intro e he heq
  rcases runSeq_events_confined (touchedVars ops) ops c
      (by rw [hch]; intro x hx; exact absurd hx (List.not_mem_nil x))
      (fun x hx => hx) e he with h1 | h2
  · rw [heq] at h1
    exact hnt h1
  · rw [heq] at h2
    exact hnr h2

theorem demo_b_unreachable :
    ¬ ReachFrom (allMethods demoComponent.constraints)
      (touchedVars [EngineOp.setv "a" 3, EngineOp.upd]) "b" := by
  intro h
  cases h
  case base hb => exact absurd hb (by decide)
  case step x m hr hm hx hy =>
    have hm0 : m ∈ [addMethod] := hm
    have hm' : m = addMethod := List.mem_singleton.mp hm0
    rw [hm'] at hy
    exact absurd hy (by decide)

theorem untouched_vars_silent_witness :
    Event.var ⟨"a", EventKind.ready 3⟩ ≠ "b" :=
  untouched_vars_silent demoComponent [.setv "a" 3, .upd] "b" rfl
    (by decide) demo_b_unreachable ⟨"a", .ready 3⟩ (by decide)

theorem execStep_events_mono (g : List Method) (st : ExecSt) (pm : PMeth)
    (e : Event) (he : e ∈ st.events) : e ∈ (execStep g st pm).events := by
  unfold execStep
  split
  · exact he
  · split
    · exact he
    · split
      · simp only [List.append_assoc, List.mem_append]
        exact Or.inl he
      · simp only [List.append_assoc, List.mem_append]
        exact Or.inl he

theorem execPlan_events_mono (g : List Method) :
    ∀ (l : List PMeth) (st : ExecSt) (e : Event),
      e ∈ st.events → e ∈ (execPlan g st l).events := by
  intro l
  induction l with
  | nil => intro st e he; exact he
  | cons pm rest ih =>
    intro st e he
    exact ih (execStep g st pm) e (execStep_events_mono g st pm e he)

theorem execStep_errs_mono (g : List Method) (st : ExecSt) (pm : PMeth)
    (v : String) (hv : v ∈ st.errs) : v ∈ (execStep g st pm).errs := by
  unfold execStep
  split
  · exact hv
  · split
    · exact hv
    · split
      · exact hv
      · simp only [List.append_assoc, List.mem_append]
        exact Or.inl hv

theorem execStep_fail_facts (g : List Method) (st : ExecSt) (pm : PMeth)
    (vals : List Int) (msg : String)
    (hskip : ∀ i ∈ pm.m.inputs, ¬ i ∈ st.errs)
    (hread : readVals st.comp pm.m.inputs = some vals)
    (hfail : pm.m.run vals = .error msg) :
    (execStep g st pm).events =
        st.events ++ pm.m.outputs.map (fun o => (⟨o, .pending⟩ : Event)) ++
          (writeErrors (pm.m.outputs.foldl markPending st.comp) msg pm.m.outputs).2 ++
          (writeErrors
            (writeErrors (pm.m.outputs.foldl markPending st.comp) msg pm.m.outputs).1
            ("unavailable: " ++ msg)
            ((dependents_of g pm.m.outputs).filter (fun v => ¬ v ∈ st.errs))).2 ∧
      (execStep g st pm).invoked = st.invoked ++ [(pm.cIdx, false)] ∧
      (execStep g st pm).errs =
        st.errs ++ pm.m.outputs ++
          (dependents_of g pm.m.outputs).filter (fun v => ¬ v ∈ st.errs) := by
  have hc : ¬ (pm.m.inputs.any (fun i => i ∈ st.errs) = true) := by
    intro h
    obtain ⟨i, hi, hd⟩ := List.any_eq_true.mp h
    exact hskip i hi (of_decide_eq_true hd)
  refine ⟨?_, ?_, ?_⟩ <;>
    (unfold execStep; rw [if_neg hc]; simp only [hread, hfail])

theorem execStep_invoked_shape (g : List Method) (st : ExecSt) (pm : PMeth) :
    ∃ add, (execStep g st pm).invoked = st.invoked ++ add ∧
      (add = [] ∨ add = [(pm.cIdx, true)] ∨ add = [(pm.cIdx, false)]) ∧
      ((∃ i, i ∈ pm.m.inputs ∧ i ∈ st.errs) → add = []) ∧
      (add = [(pm.cIdx, true)] →
        ∃ vals outs, readVals st.comp pm.m.inputs = some vals ∧
          pm.m.run vals = .ok outs ∧
          (execStep g st pm).events =
            st.events ++ pm.m.outputs.map (fun o => (⟨o, .pending⟩ : Event)) ++
              (writeOutputs (pm.m.outputs.foldl markPending st.comp)
                pm.m.outputs outs).2) := by
  by_cases hc : pm.m.inputs.any (fun i => i ∈ st.errs) = true
  · have hstep : execStep g st pm = st := by
      unfold execStep
      rw [if_pos hc]
    refine ⟨[], by rw [hstep]; simp, Or.inl rfl, fun _ => rfl, ?_⟩
    intro hadd
    exact absurd hadd (by simp)
  · have hcn : ∀ i ∈ pm.m.inputs, ¬ i ∈ st.errs := by
      intro i hi hie
      exact hc (List.any_eq_true.mpr ⟨i, hi, decide_eq_true hie⟩)
    cases hrv : readVals st.comp pm.m.inputs with
    | none =>
      have hstep : execStep g st pm = st := by
        unfold execStep
        rw [if_neg hc, hrv]
      refine ⟨[], by rw [hstep]; simp, Or.inl rfl, fun _ => rfl, ?_⟩
      intro hadd
      exact absurd hadd (by simp)
    | some vals =>
      cases hrun : pm.m.run vals with
      | ok outs =>
        have hinv : (execStep g st pm).invoked = st.invoked ++ [(pm.cIdx, true)] := by
          unfold execStep
          rw [if_neg hc]
          simp only [hrv, hrun]
        have hev : (execStep g st pm).events =
            st.events ++ pm.m.outputs.map (fun o => (⟨o, .pending⟩ : Event)) ++
              (writeOutputs (pm.m.outputs.foldl markPending st.comp)
                pm.m.outputs outs).2 := by
          unfold execStep
          rw [if_neg hc]
          simp only [hrv, hrun]
        refine ⟨[(pm.cIdx, true)], hinv, Or.inr (Or.inl rfl), ?_, ?_⟩
        · rintro ⟨i, hi, hie⟩
          exact absurd hie (hcn i hi)
        · intro _
          exact ⟨vals, outs, rfl, hrun, hev⟩
      | error msg =>
        have hinv : (execStep g st pm).invoked = st.invoked ++ [(pm.cIdx, false)] := by
          unfold execStep
          rw [if_neg hc]
          simp only [hrv, hrun]
        refine ⟨[(pm.cIdx, false)], hinv, Or.inr (Or.inr rfl), ?_, ?_⟩
        · rintro ⟨i, hi, hie⟩
          exact absurd hie (hcn i hi)
        · intro hadd
          exact absurd hadd (by simp)

theorem execPlan_delta (g : List Method) :
    ∀ (l : List PMeth) (st : ExecSt),
      ∃ tl, (execPlan g st l).invoked = st.invoked ++ tl ∧
        (tl.map Prod.fst).Sublist (l.map PMeth.cIdx) ∧
        ((l.map PMeth.cIdx).Nodup →
          ∀ q ∈ l, (∃ i, i ∈ q.m.inputs ∧ i ∈ st.errs) →
            ∀ b : Bool, ¬ (q.cIdx, b) ∈ tl) ∧
        ((l.map PMeth.cIdx).Nodup →
          (∀ q ∈ l, ∀ vs outs, q.m.run vs = .ok outs →
            outs.length = q.m.outputs.length) →
          ∀ q ∈ l, (q.cIdx, true) ∈ tl →
            ∀ o ∈ q.m.outputs, ∃ v,
              (⟨o, .ready v⟩ : Event) ∈ (execPlan g st l).events) := by
  intro l
  induction l with
  | nil =>
    intro st
    refine ⟨[], by simp [execPlan], List.nil_sublist _, ?_, ?_⟩
    · intro _ q hq
      exact absurd hq (List.not_mem_nil q)
    · intro _ _ q hq
      exact absurd hq (List.not_mem_nil q)
  | cons q0 rest ih =>
    intro st
    obtain ⟨add, hadd, hshape, hskip0, hready0⟩ := execStep_invoked_shape g st q0
    obtain ⟨tl', htl', hsub', hskip', hready'⟩ := ih (execStep g st q0)
    refine ⟨add ++ tl', ?_, ?_, ?_, ?_⟩
    · show (execPlan g (execStep g st q0) rest).invoked = st.invoked ++ (add ++ tl')
      rw [htl', hadd, List.append_assoc]
    · rw [List.map_append, List.map_cons]
      rcases hshape with rfl | rfl | rfl
      · simp only [List.map_nil, List.nil_append]
        exact hsub'.trans (List.sublist_cons_self _ _)
      · exact List.Sublist.cons₂ _ hsub'
      · exact List.Sublist.cons₂ _ hsub'
    · intro hnd q hq hpoison b hmem
      obtain ⟨i, hi, hie⟩ := hpoison
      have hndh : ¬ q0.cIdx ∈ rest.map PMeth.cIdx := (List.nodup_cons.mp hnd).1
      have hndt : (rest.map PMeth.cIdx).Nodup := (List.nodup_cons.mp hnd).2
      rcases List.mem_append.mp hmem with hmemA | hmemT
      · rcases hshape with rfl | rfl | rfl
        · exact absurd hmemA (List.not_mem_nil _)
        · have heq := List.mem_singleton.mp hmemA
          have hqc : q.cIdx = q0.cIdx := congrArg Prod.fst heq
          rcases List.mem_cons.mp hq with rfl | hqr
          · exact absurd (hskip0 ⟨i, hi, hie⟩) (by simp)
          · exact hndh (hqc ▸ List.mem_map_of_mem PMeth.cIdx hqr)
        · have heq := List.mem_singleton.mp hmemA
          have hqc : q.cIdx = q0.cIdx := congrArg Prod.fst heq
          rcases List.mem_cons.mp hq with rfl | hqr
          · exact absurd (hskip0 ⟨i, hi, hie⟩) (by simp)
          · exact hndh (hqc ▸ List.mem_map_of_mem PMeth.cIdx hqr)
      · rcases List.mem_cons.mp hq with rfl | hqr
        · have hin : q.cIdx ∈ tl'.map Prod.fst :=
            List.mem_map_of_mem Prod.fst hmemT
          exact hndh (hsub'.subset hin)
        · exact hskip' hndt q hqr
            ⟨i, hi, execStep_errs_mono g st q0 i hie⟩ b hmemT
    · intro hnd hlen q hq hmem o ho
      have hndh : ¬ q0.cIdx ∈ rest.map PMeth.cIdx := (List.nodup_cons.mp hnd).1
      have hndt : (rest.map PMeth.cIdx).Nodup := (List.nodup_cons.mp hnd).2
      rcases List.mem_append.mp hmem with hmemA | hmemT
      · rcases hshape with rfl | rfl | rfl
        · exact absurd hmemA (List.not_mem_nil _)
        · have heq := List.mem_singleton.mp hmemA
          have hqc : q.cIdx = q0.cIdx := congrArg Prod.fst heq
          rcases List.mem_cons.mp hq with rfl | hqr
          · obtain ⟨vals, outs, hrv, hrun, hev⟩ := hready0 rfl
            have hl : outs.length = q.m.outputs.length :=
              hlen q (List.mem_cons_self _ _) vals outs hrun
            obtain ⟨v, hv⟩ := writeOutputs_complete q.m.outputs outs
              (q.m.outputs.foldl markPending st.comp) o hl ho
            refine ⟨v, execPlan_events_mono g rest (execStep g st q) _ ?_⟩
            rw [hev]
            simp only [List.append_assoc, List.mem_append]
            exact Or.inr (Or.inr hv)
          · exact absurd (hqc ▸ List.mem_map_of_mem PMeth.cIdx hqr) hndh
        · have heq := List.mem_singleton.mp hmemA
          have : (true : Bool) = false := congrArg Prod.snd heq
          exact absurd this (by simp)
      · rcases List.mem_cons.mp hq with rfl | hqr
        · have hin : q.cIdx ∈ tl'.map Prod.fst :=
            List.mem_map_of_mem Prod.fst hmemT
          exact absurd (hsub'.subset hin) hndh
        · exact hready' hndt
            (fun q' hq' => hlen q' (List.mem_cons_of_mem _ hq'))
            q hqr hmemT o ho

theorem readVals_length (c : Component) :
    ∀ (l : List String) (vs : List Int),
      readVals c l = some vs → vs.length = l.length := by
  intro l
  induction l with
  | nil =>
    intro vs h
    cases h
    rfl
  | cons n ns ih =>
    intro vs h
    rw [readVals] at h
    cases hv : lookupValue c n with
    | none =>
      rw [hv] at h
      cases h
    | some v =>
      rw [hv] at h
      cases hr : readVals c ns with
      | none =>
        rw [hr] at h
        cases h
      | some ws =>
        rw [hr] at h
        cases h
        simp [ih ws hr]

theorem readVals_isSome_iff (c : Component) :
    ∀ (l : List String),
      (readVals c l).isSome = true ↔
        ∀ i ∈ l, (lookupValue c i).isSome = true := by
  intro l
  induction l with
  | nil => simp [readVals]
  | cons n ns ih =>
    constructor
    · intro h i hi
      rw [readVals] at h
      cases hv : lookupValue c n with
      | none =>
        rw [hv] at h
        simp at h
      | some v =>
        cases hr : readVals c ns with
        | none =>
          rw [hv, hr] at h
          simp at h
        | some ws =>
          rcases List.mem_cons.mp hi with rfl | hmem
          · simp [hv]
          · exact ih.mp (by simp [hr]) i hmem
    · intro h
      obtain ⟨v, hv⟩ := Option.isSome_iff_exists.mp (h n (List.mem_cons_self _ _))
      obtain ⟨ws, hr⟩ := Option.isSome_iff_exists.mp
        (ih.mpr (fun i hi => h i (List.mem_cons_of_mem _ hi)))
      rw [readVals, hv, hr]
      rfl

theorem find_map_isSome (n i : String) (f : VarSlot → VarSlot)
    (hname : ∀ s, (f s).name = s.name)
    (hval : ∀ s, s.value.isSome = true → ((f s).value).isSome = true) :
    ∀ (l : List VarSlot),
      (match l.find? (fun s : VarSlot => s.name = i) with
        | some s => s.value
        | none => none).isSome = true →
      (match (l.map (fun s : VarSlot => if s.name = n then f s else s)).find?
          (fun s : VarSlot => s.name = i) with
        | some s => s.value
        | none => none).isSome = true := by
  intro l
  induction l with
  | nil =>
    intro h
    simp at h
  | cons s ss ih =>
    intro h
    have hmname : ((if s.name = n then f s else s) : VarSlot).name = s.name := by
      split
      · exact hname s
      · rfl
    by_cases hsi : s.name = i
    · have hfind : (s :: ss).find? (fun t : VarSlot => t.name = i) = some s :=
        List.find?_cons_of_pos _ (by simp [hsi])
      rw [hfind] at h
      have hfind2 : ((s :: ss).map
            (fun t : VarSlot => if t.name = n then f t else t)).find?
          (fun t : VarSlot => t.name = i)
          = some (if s.name = n then f s else s) := by
        rw [List.map_cons]
        exact List.find?_cons_of_pos _ (by rw [hmname]; exact decide_eq_true hsi)
      rw [hfind2]
      show ((if s.name = n then f s else s).value).isSome = true
      split
      · exact hval s h
      · exact h
    · have hfind : (s :: ss).find? (fun t : VarSlot => t.name = i)
          = ss.find? (fun t : VarSlot => t.name = i) :=
        List.find?_cons_of_neg _ (by simp [hsi])
      rw [hfind] at h
      have hfind2 : ((s :: ss).map
            (fun t : VarSlot => if t.name = n then f t else t)).find?
          (fun t : VarSlot => t.name = i)
          = (ss.map (fun t : VarSlot => if t.name = n then f t else t)).find?
            (fun t : VarSlot => t.name = i) := by
        rw [List.map_cons]
        exact List.find?_cons_of_neg _ (by rw [hmname]; simpa using hsi)
      rw [hfind2]
      exact ih h

theorem lookupValue_updateSlot_isSome (c : Component) (n : String)
    (f : VarSlot → VarSlot)
    (hname : ∀ s, (f s).name = s.name)
    (hval : ∀ s, s.value.isSome = true → ((f s).value).isSome = true)
    (i : String) (h : (lookupValue c i).isSome = true) :
    (lookupValue (updateSlot c n f) i).isSome = true :=
  find_map_isSome n i f hname hval c.vars h

theorem lookupValue_markPending_isSome (c : Component) (n i : String)
    (h : (lookupValue c i).isSome = true) :
    (lookupValue (markPending c n) i).isSome = true :=
  lookupValue_updateSlot_isSome c n
    (fun s => { s with state := .pending }) (fun _ => rfl) (fun _ hs => hs) i h

theorem lookupValue_markReadyVal_isSome (c : Component) (n : String) (v : Int)
    (i : String) (h : (lookupValue c i).isSome = true) :
    (lookupValue (markReadyVal c n v) i).isSome = true :=
  lookupValue_updateSlot_isSome c n
    (fun s => { s with value := some v, state := .ready })
    (fun _ => rfl) (fun _ _ => rfl) i h

theorem lookupValue_markError_isSome (c : Component) (n msg i : String)
    (h : (lookupValue c i).isSome = true) :
    (lookupValue (markError c n msg) i).isSome = true :=
  lookupValue_updateSlot_isSome c n
    (fun s => { s with state := .error msg }) (fun _ => rfl) (fun _ hs => hs) i h

theorem foldl_markPending_values :
    ∀ (l : List String) (c : Component) (i : String),
      (lookupValue c i).isSome = true →
      (lookupValue (l.foldl markPending c) i).isSome = true := by
  intro l
  induction l with
  | nil => intro c i h; exact h
  | cons n ns ih =>
    intro c i h
    rw [List.foldl_cons]
    exact ih (markPending c n) i (lookupValue_markPending_isSome c n i h)

theorem writeOutputs_values :
    ∀ (ns : List String) (vs : List Int) (c : Component) (i : String),
      (lookupValue c i).isSome = true →
      (lookupValue (writeOutputs c ns vs).1 i).isSome = true := by
  intro ns
  induction ns with
  | nil => intro vs c i h; exact h
  | cons n ns ih =>
    intro vs c i h
    cases vs with
    | nil => exact h
    | cons v vs =>
      rw [writeOutputs]
      exact ih vs (markReadyVal c n v) i (lookupValue_markReadyVal_isSome c n v i h)

theorem writeErrors_values (msg : String) :
    ∀ (l : List String) (c : Component) (i : String),
      (lookupValue c i).isSome = true →
      (lookupValue (writeErrors c msg l).1 i).isSome = true := by
  intro l
  induction l with
  | nil => intro c i h; exact h
  | cons n ns ih =>
    intro c i h
    rw [writeErrors]
    exact ih (markError c n msg) i (lookupValue_markError_isSome c n msg i h)

theorem execStep_values (g : List Method) (st : ExecSt) (pm : PMeth)
    (i : String) (h : (lookupValue st.comp i).isSome = true) :
    (lookupValue (execStep g st pm).comp i).isSome = true := by
  unfold execStep
  split
  · exact h
  · split
    · exact h
    · split
      · exact writeOutputs_values _ _ _ i (foldl_markPending_values _ _ i h)
      · exact writeErrors_values _ _ _ i
          (writeErrors_values _ _ _ i (foldl_markPending_values _ _ i h))

theorem execPlan_values (g : List Method) :
    ∀ (l : List PMeth) (st : ExecSt) (i : String),
      (lookupValue st.comp i).isSome = true →
      (lookupValue (execPlan g st l).comp i).isSome = true := by
  intro l
  induction l with
  | nil => intro st i h; exact h
  | cons pm rest ih =>
    intro st i h
    exact ih (execStep g st pm) i (execStep_values g st pm i h)

theorem execStep_invoked_mono (g : List Method) (st : ExecSt) (pm : PMeth)
    (x : Nat × Bool) (h : x ∈ st.invoked) : x ∈ (execStep g st pm).invoked := by
  unfold execStep
  split
  · exact h
  · split
    · exact h
    · split
      · exact List.mem_append_left _ h
      · exact List.mem_append_left _ h

theorem execPlan_invoked_mono (g : List Method) :
    ∀ (l : List PMeth) (st : ExecSt) (x : Nat × Bool),
      x ∈ st.invoked → x ∈ (execPlan g st l).invoked := by
  intro l
  induction l with
  | nil => intro st x h; exact h
  | cons pm rest ih =>
    intro st x h
    exact ih (execStep g st pm) x (execStep_invoked_mono g st pm x h)

theorem execPlan_errs_mono (g : List Method) :
    ∀ (l : List PMeth) (st : ExecSt) (v : String),
      v ∈ st.errs → v ∈ (execPlan g st l).errs := by
  intro l
  induction l with
  | nil => intro st v h; exact h
  | cons pm rest ih =>
    intro st v h
    exact ih (execStep g st pm) v (execStep_errs_mono g st pm v h)

theorem execStep_ok_facts (g : List Method) (st : ExecSt) (pm : PMeth)
    (vals : List Int) (outs : List Int)
    (hskip : ∀ i ∈ pm.m.inputs, ¬ i ∈ st.errs)
    (hread : readVals st.comp pm.m.inputs = some vals)
    (hok : pm.m.run vals = .ok outs) :
    (execStep g st pm).events =
        st.events ++ pm.m.outputs.map (fun o => (⟨o, .pending⟩ : Event)) ++
          (writeOutputs (pm.m.outputs.foldl markPending st.comp)
            pm.m.outputs outs).2 ∧
      (execStep g st pm).invoked = st.invoked ++ [(pm.cIdx, true)] := by
  have hc : ¬ (pm.m.inputs.any (fun i => i ∈ st.errs) = true) := by
    intro h
    obtain ⟨i, hi, hd⟩ := List.any_eq_true.mp h
    exact hskip i hi (of_decide_eq_true hd)
  refine ⟨?_, ?_⟩ <;>
    (unfold execStep; rw [if_neg hc]; simp only [hread, hok])

theorem execStep_invoked_of_not_skipped (g : List Method) (st : ExecSt)
    (pm : PMeth)
    (herrs : ∀ i ∈ pm.m.inputs, ¬ i ∈ st.errs)
    (hread : (readVals st.comp pm.m.inputs).isSome = true) :
    ∃ b, (pm.cIdx, b) ∈ (execStep g st pm).invoked := by
  obtain ⟨vals, hvals⟩ := Option.isSome_iff_exists.mp hread
  cases hrun : pm.m.run vals with
  | ok outs =>
    obtain ⟨_, hinv⟩ := execStep_ok_facts g st pm vals outs herrs hvals hrun
    refine ⟨true, ?_⟩
    rw [hinv]
    simp
  | error msg =>
    obtain ⟨_, hinv, _⟩ := execStep_fail_facts g st pm vals msg herrs hvals hrun
    refine ⟨false, ?_⟩
    rw [hinv]
    simp

theorem execPlan_invokes (g : List Method) :
    ∀ (l : List PMeth) (st : ExecSt) (q : PMeth), q ∈ l →
      (∀ i ∈ q.m.inputs, ¬ i ∈ (execPlan g st l).errs) →
      (readVals st.comp q.m.inputs).isSome = true →
      ∃ b, (q.cIdx, b) ∈ (execPlan g st l).invoked := by
  intro l
  induction l with
  | nil =>
    intro st q hq
    exact absurd hq (List.not_mem_nil q)
  | cons q0 rest ih =>
    intro st q hq herrs hread
    rcases List.mem_cons.mp hq with rfl | hqr
    · have herrs0 : ∀ i ∈ q.m.inputs, ¬ i ∈ st.errs := by
        intro i hi hie
        exact herrs i hi (execPlan_errs_mono g (q :: rest) st i hie)
      obtain ⟨b, hb⟩ := execStep_invoked_of_not_skipped g st q herrs0 hread
      exact ⟨b, execPlan_invoked_mono g rest (execStep g st q) _ hb⟩
    · refine ih (execStep g st q0) q hqr (fun i hi => herrs i hi) ?_
      rw [readVals_isSome_iff] at hread ⊢
      intro i hi
      exact execStep_values g st q0 i (hread i hi)

theorem execPlan_ready (g : List Method) :
    ∀ (l : List PMeth) (st : ExecSt) (q : PMeth), q ∈ l →
      (∀ i ∈ q.m.inputs, ¬ i ∈ (execPlan g st l).errs) →
      (readVals st.comp q.m.inputs).isSome = true →
      (∀ vs : List Int, vs.length = q.m.inputs.length →
        ∃ outs, q.m.run vs = .ok outs ∧ outs.length = q.m.outputs.length) →
      ∀ o ∈ q.m.outputs, ∃ v,
        (⟨o, .ready v⟩ : Event) ∈ (execPlan g st l).events := by
  intro l
  induction l with
  | nil =>
    intro st q hq
    exact absurd hq (List.not_mem_nil q)
  | cons q0 rest ih =>
    intro st q hq herrs hread htot o ho
    rcases List.mem_cons.mp hq with rfl | hqr
    · have herrs0 : ∀ i ∈ q.m.inputs, ¬ i ∈ st.errs := by
        intro i hi hie
        exact herrs i hi (execPlan_errs_mono g (q :: rest) st i hie)
      obtain ⟨vals, hvals⟩ := Option.isSome_iff_exists.mp hread
      obtain ⟨outs, hok, hlen⟩ := htot vals (readVals_length st.comp q.m.inputs vals hvals)
      obtain ⟨hev, _⟩ := execStep_ok_facts g st q vals outs herrs0 hvals hok
      obtain ⟨v, hv⟩ := writeOutputs_complete q.m.outputs outs
        (q.m.outputs.foldl markPending st.comp) o hlen ho
      refine ⟨v, execPlan_events_mono g rest (execStep g st q) _ ?_⟩
      rw [hev]
      simp only [List.append_assoc, List.mem_append]
      exact Or.inr (Or.inr hv)
    · refine ih (execStep g st q0) q hqr (fun i hi => herrs i hi) ?_ htot o ho
      rw [readVals_isSome_iff] at hread ⊢
      intro i hi
      exact execStep_values g st q0 i (hread i hi)

/-- C8: when a method of an update's plan fails at any point of the
execution, every one of its declared outputs is marked Error with the
failure's diagnostic, every transitive dependent of those outputs is marked
Error as well, remaining methods of the plan consuming any of those
variables are never invoked, the whole update's invocation log is a
duplicate-free sublist of the plan (single-pass: no method invoked twice),
while methods not downstream of the failure, with readable inputs and a
computation that succeeds on well-formed input, are still invoked and still
deliver Ready events for all their outputs. -/
theorem method_failure_containment (g : List Method) (c0 : Component)
    (pre : List PMeth) (pm : PMeth) (rest : List PMeth)
    (vals : List Int) (msg : String)
    (hskip : ∀ i ∈ pm.m.inputs, ¬ i ∈ (execFrom g c0 pre).errs)
    (hread : readVals (execFrom g c0 pre).comp pm.m.inputs = some vals)
    (hfail : pm.m.run vals = .error msg)
    (hnd : ((pre ++ pm :: rest).map PMeth.cIdx).Nodup) :
    (∀ o ∈ pm.m.outputs,
        (⟨o, .error msg⟩ : Event) ∈
          (execFrom g c0 (pre ++ pm :: rest)).events) ∧
    (∀ v ∈ (dependents_of g pm.m.outputs).filter
        (fun u => ¬ u ∈ (execFrom g c0 pre).errs),
        (⟨v, .error ("unavailable: " ++ msg)⟩ : Event) ∈
          (execFrom g c0 (pre ++ pm :: rest)).events) ∧
    (pm.cIdx, false) ∈ (execFrom g c0 (pre ++ pm :: rest)).invoked ∧
    ((execFrom g c0 (pre ++ pm :: rest)).invoked.map Prod.fst).Sublist
        ((pre ++ pm :: rest).map PMeth.cIdx) ∧
    ((execFrom g c0 (pre ++ pm :: rest)).invoked.map Prod.fst).Nodup ∧
    (∀ q ∈ rest,
        (∃ i, i ∈ q.m.inputs ∧
          (i ∈ pm.m.outputs ∨
            i ∈ (dependents_of g pm.m.outputs).filter
              (fun u => ¬ u ∈ (execFrom g c0 pre).errs))) →
        ∀ b : Bool, ¬ (q.cIdx, b) ∈ (execFrom g c0 (pre ++ pm :: rest)).invoked) ∧
    (∀ q ∈ rest,
        (∀ i ∈ q.m.inputs, ¬ i ∈ (execFrom g c0 (pre ++ pm :: rest)).errs) →
        (readVals c0 q.m.inputs).isSome = true →
        ∃ b, (q.cIdx, b) ∈ (execFrom g c0 (pre ++ pm :: rest)).invoked) ∧
    (∀ q ∈ rest,
        (∀ i ∈ q.m.inputs, ¬ i ∈ (execFrom g c0 (pre ++ pm :: rest)).errs) →
        (readVals c0 q.m.inputs).isSome = true →
        (∀ vs : List Int, vs.length = q.m.inputs.length →
          ∃ outs, q.m.run vs = .ok outs ∧ outs.length = q.m.outputs.length) →
        ∀ o ∈ q.m.outputs, ∃ v,
          (⟨o, .ready v⟩ : Event) ∈
            (execFrom g c0 (pre ++ pm :: rest)).events) := by
  have hsplit : execFrom g c0 (pre ++ pm :: rest) =
      execPlan g (execStep g (execFrom g c0 pre) pm) rest := by
    unfold execFrom execPlan
    rw [List.foldl_append]
    rfl
  obtain ⟨hev, hinv, herr⟩ :=
    execStep_fail_facts g (execFrom g c0 pre) pm vals msg hskip hread hfail
  obtain ⟨hnd1, hnd2, hdisj⟩ :=
    List.nodup_append.mp (by simpa only [List.map_append] using hnd)
  rw [List.map_cons] at hnd2
  have hndh : ¬ pm.cIdx ∈ rest.map PMeth.cIdx := (List.nodup_cons.mp hnd2).1
  have hndt : (rest.map PMeth.cIdx).Nodup := (List.nodup_cons.mp hnd2).2
  obtain ⟨tl0, htl0, hsub0, _, _⟩ := execPlan_delta g pre ⟨c0, [], [], []⟩
  obtain ⟨tl', htl', hsub', hskipD, _⟩ :=
    execPlan_delta g rest (execStep g (execFrom g c0 pre) pm)
  have h0 : (execFrom g c0 pre).invoked = tl0 := by
    unfold execFrom
    simpa using htl0
  have hinvfull : (execFrom g c0 (pre ++ pm :: rest)).invoked =
      tl0 ++ (pm.cIdx, false) :: tl' := by
    rw [hsplit, htl', hinv, h0]
    simp
  have hsubfull : ((execFrom g c0 (pre ++ pm :: rest)).invoked.map Prod.fst).Sublist
      ((pre ++ pm :: rest).map PMeth.cIdx) := by
    rw [hinvfull]
    simp only [List.map_append, List.map_cons]
    exact List.Sublist.append hsub0 (List.Sublist.cons₂ _ hsub')
  refine ⟨?_, ?_, ?_, hsubfull, hsubfull.nodup hnd, ?_, ?_, ?_⟩
  · intro o ho
    rw [hsplit]
    refine execPlan_events_mono g rest _ _ ?_
    rw [hev]
    simp only [List.append_assoc, List.mem_append]
    exact Or.inr (Or.inr (Or.inl (writeErrors_complete msg pm.m.outputs _ o ho)))
  · intro v hv
    rw [hsplit]
    refine execPlan_events_mono g rest _ _ ?_
    rw [hev]
    simp only [List.append_assoc, List.mem_append]
    exact Or.inr (Or.inr (Or.inr (writeErrors_complete _ _ _ v hv)))
  · rw [hinvfull]
    simp
  · intro q hq hpoison b hmem
    obtain ⟨i, hi, hio⟩ := hpoison
    have hie : i ∈ (execStep g (execFrom g c0 pre) pm).errs := by
      rw [herr]
      simp only [List.append_assoc, List.mem_append]
      rcases hio with h1 | h2
      · exact Or.inr (Or.inl h1)
      · exact Or.inr (Or.inr h2)
    rw [hinvfull] at hmem
    rcases List.mem_append.mp hmem with hm0 | hm1
    · have hq1 : q.cIdx ∈ pre.map PMeth.cIdx :=
        hsub0.subset (List.mem_map_of_mem Prod.fst hm0)
      exact hdisj hq1 (List.mem_map_of_mem PMeth.cIdx (List.mem_cons_of_mem pm hq))
    · rcases List.mem_cons.mp hm1 with heq | hm2
      · have hqc : q.cIdx = pm.cIdx := congrArg Prod.fst heq
        exact hndh (hqc ▸ List.mem_map_of_mem PMeth.cIdx hq)
      · exact hskipD hndt q hq ⟨i, hi, hie⟩ b hm2
  · intro q hq herrs hreadq
    rw [hsplit] at herrs ⊢
    refine execPlan_invokes g rest _ q hq herrs ?_
    rw [readVals_isSome_iff] at hreadq ⊢
    intro i hi
    refine execStep_values g (execFrom g c0 pre) pm i ?_
    exact execPlan_values g pre ⟨c0, [], [], []⟩ i (hreadq i hi)
  · intro q hq herrs hreadq htot o ho
    rw [hsplit] at herrs ⊢
    refine execPlan_ready g rest _ q hq herrs ?_ htot o ho
    rw [readVals_isSome_iff] at hreadq ⊢
    intro i hi
    refine execStep_values g (execFrom g c0 pre) pm i ?_
    exact execPlan_values g pre ⟨c0, [], [], []⟩ i (hreadq i hi)

theorem method_failure_containment_witness :
    (⟨"c", EventKind.error "division by zero"⟩ : Event) ∈
      (execFrom (allMethods mixDirty.constraints) mixDirty
        ([] ++ (⟨0, divMethod⟩ : PMeth) :: [⟨1, mixMethod⟩])).events ∧
    ∃ v, (⟨"y", EventKind.ready v⟩ : Event) ∈
      (execFrom (allMethods mixDirty.constraints) mixDirty
        ([] ++ (⟨0, divMethod⟩ : PMeth) :: [⟨1, mixMethod⟩])).events := by
  have h := method_failure_containment (allMethods mixDirty.constraints) mixDirty
    [] ⟨0, divMethod⟩ [⟨1, mixMethod⟩] [1, 0] "division by zero"
    (by decide) rfl rfl (by decide)
  refine ⟨h.1 "c" (by decide), ?_⟩
  refine h.2.2.2.2.2.2.2 ⟨1, mixMethod⟩ (List.mem_cons_self _ _)
    (by decide) (by decide) ?_ "y" (by decide)
  intro vs hl
  have hl2 : vs.length = 2 := hl
  rcases vs with _ | ⟨a, vs1⟩
  · exfalso
    simp only [List.length_nil] at hl2
    omega
  · rcases vs1 with _ | ⟨b, vs2⟩
    · exfalso
      simp only [List.length_cons, List.length_nil] at hl2
      omega
    · rcases vs2 with _ | ⟨z, vs3⟩
      · exact ⟨[a + b], rfl, rfl⟩
      · exfalso
        simp only [List.length_cons] at hl2
        omega

end HotdrinkSpec
